import Mathlib

/-!
Shallow embedding of the `aren_alloc` pooled allocator (`src/lib.rs`).

Modelling conventions:
* Slot addresses are natural numbers; every `Pool` owns a private address
  space (in Rust each pool's buffers are disjoint heap allocations, and no
  claim compares addresses across pools).
* A raw pointer that may be null is an `Option Nat`; `none` is null.
* Memory is an association list from addresses to slot contents in which
  later writes shadow earlier ones (`Mem.set` prepends).
* A slot's bytes are reinterpreted either as an intrusive free-list `Node`
  (`Slot.link`) or as a stored copyable value.  Copyable values are byte
  lists, so `size_of` is the list length; routing in `Allocator::alloc`
  depends only on the size, which this erasure makes exact.
* Reading bytes that do not currently hold a free-list link as a `Node`
  is undefined behaviour in the Rust source; operations return `none`
  (or `AllocOutcome.stuck`) in that case.
* `Vec::with_capacity (num * ele_size)` is modelled as a buffer of exactly
  `num * ele_size` bytes, which is the source's evident intent in
  `Pool::extend`'s `capacity() / ele_size` computation.
-/

namespace ArenAlloc

/-- Content of one fixed-size slot: either the intrusive free-list node
(`Node { next: *mut Node }` in the source) or the bytes of a stored value. -/
inductive Slot where
  | link (next : Option Nat)
  | stored (val : List Nat)
deriving DecidableEq

/-- Raw memory of one pool chain: an association list from slot addresses to
slot contents; later writes shadow earlier ones. -/
abbrev Mem := List (Nat × Slot)

/-- Read the slot at address `a`; `none` when the address was never written. -/
def Mem.get : Mem → Nat → Option Slot
  | [], _ => none
  | (b, s) :: m, a => if a = b then some s else Mem.get m a

/-- Write slot content `s` at address `a` (shadowing any earlier write). -/
def Mem.set (m : Mem) (a : Nat) (s : Slot) : Mem := (a, s) :: m

/-- The state of `struct Pool`.  `buffers` lists the base addresses of the
buffers in the `next_pool` ownership chain, root first; `tail_pool` is the
base address of the chain's tail buffer; `head` is the root free-list cursor;
`cap` is the root buffer's capacity in slots (`capacity() / ele_size`);
`nextBase` is the model's fresh-address supply for the next grown buffer. -/
structure Pool where
  ele_size : Nat
  cap : Nat
  buffers : List Nat
  tail_pool : Nat
  head : Option Nat
  mem : Mem
  nextBase : Nat
deriving DecidableEq

/-- The loop `for i in 0..num-1` of `Pool::with_capacity`, which links slot
`i` to slot `i+1`: `linkLoop m base es k` performs the writes for
`i = 0, ..., k-1` in ascending order. -/
def linkLoop (m : Mem) (base es : Nat) : Nat → Mem
  | 0 => m
  | k + 1 => Mem.set (linkLoop m base es k) (base + k * es)
      (Slot.link (some (base + (k + 1) * es)))

/-- The free-list construction of `Pool::with_capacity` over a fresh buffer
of `num` slots of `es` bytes at `base`: link slots `0..num-2` each to its
successor, then set slot `num-1`'s link to null.  (For `num = 0` the Rust
source underflows `num - 1` in `usize`; the claims only concern `num ≥ 1`,
where truncated `Nat` subtraction agrees with the source.) -/
def buildLinks (m : Mem) (base num es : Nat) : Mem :=
  Mem.set (linkLoop m base es (num - 1)) (base + (num - 1) * es) (Slot.link none)

/-- Embeds `Pool::with_capacity(num, ele_size)`: one buffer of `num` slots at
`base`, its slots linked into a free list, `head` at the buffer start,
`tail_pool` pointing at the pool itself. -/
def Pool.with_capacity (num ele_size base : Nat) : Pool :=
  { ele_size := ele_size
    cap := num
    buffers := [base]
    tail_pool := base
    head := some base
    mem := buildLinks [] base num ele_size
    nextBase := base + num * ele_size }

/-- Embeds `DEFAULT_POOL_SIZE` from the source. -/
def DEFAULT_POOL_SIZE : Nat := 4096

/-- Embeds `Pool::new(ele_size)`. -/
def Pool.new (ele_size : Nat) : Pool :=
  Pool.with_capacity (DEFAULT_POOL_SIZE / ele_size) ele_size 0

/-- Embeds `Pool::extend`: when the root cursor is null, build one new buffer of the
original capacity and slot size at a fresh base address, append it as the
previous tail's `next_pool`, move the `tail_pool` marker to it, and redirect
the root `head` to the new buffer's internally built free list. -/
def Pool.extend (p : Pool) : Pool :=
  if p.head = none then
    { p with
      mem := buildLinks p.mem p.nextBase p.cap p.ele_size
      head := some p.nextBase
      buffers := p.buffers ++ [p.nextBase]
      tail_pool := p.nextBase
      nextBase := p.nextBase + p.cap * p.ele_size }
  else p

/-- Embeds `Pool::alloc` (the slot-popping part, before the caller writes a value):
extend when the cursor is null, then pop the cursor head and return its
address together with the updated pool.  Returns `none` exactly when the Rust
source hits undefined behaviour (the cursor, after a possible extend, points
at bytes that are not a free-list node) — never on a well-formed pool. -/
def Pool.alloc (p0 : Pool) : Option (Nat × Pool) :=
  let p := if p0.head = none then p0.extend else p0
  match p.head with
  | none => none
  | some lasthead =>
    match Mem.get p.mem lasthead with
    | some (Slot.link nexthead) => some (lasthead, { p with head := nexthead })
    | _ => none

/-- Embeds `Pool::recycle(node)`: push the slot at `node` onto the root free-list
cursor (the slot's bytes are overwritten with a link to the old head). -/
def Pool.recycle (p : Pool) (node : Nat) : Pool :=
  { p with mem := Mem.set p.mem node (Slot.link p.head), head := some node }

/-- The write `*ret = elem` performed through the returned pointer by
`Allocator::alloc`: store the value's bytes into the slot. -/
def Pool.writeVal (p : Pool) (addr : Nat) (v : List Nat) : Pool :=
  { p with mem := Mem.set p.mem addr (Slot.stored v) }

/-- Reading a slot through a handle (`Pointer::as_ref` dereferencing the raw
pointer): defined only while the slot holds stored bytes. -/
def Pool.readSlot (p : Pool) (a : Nat) : Option (List Nat) :=
  match Mem.get p.mem a with
  | some (Slot.stored v) => some v
  | _ => none

/-- The in-memory representation of the `node : *mut T` field of `Pointer`.
For sized `T` it is a thin pointer (`meta = none`); after a `CoerceUnsized`
narrowing to a trait object it is a fat pointer whose first word is the data
address and whose second word is the vtable pointer (`meta = some vt`). -/
structure FatPtr where
  data : Nat
  meta : Option Nat
deriving DecidableEq

/-- Embeds `std::mem::transmute_copy::<_, *mut Node>(&self.node)` in
`Drop for Pointer`: read the first pointer-sized word of the (thin or fat)
pointer representation, which is the data address. -/
def FatPtr.transmuteCopyToNode (n : FatPtr) : Nat := n.data

/-- The handle `Pointer { pool, node }`.  The `pool` back-reference is
modelled by the owning pool's size class (which identifies the pool inside
the `Allocator`); `node` is the raw pointer to the slot. -/
structure Pointer where
  pool : Nat
  node : FatPtr
deriving DecidableEq

/-- The `CoerceUnsized` narrowing of a handle to a trait-object view: the
data address and owning pool are unchanged; a vtable word is attached. -/
def Pointer.narrow (p : Pointer) (vt : Nat) : Pointer :=
  { p with node := { data := p.node.data, meta := some vt } }

/-- Embeds `struct Allocator`: one root pool per size class. -/
structure Allocator where
  pool8 : Pool
  pool16 : Pool
  pool32 : Pool
  pool64 : Pool
  pool128 : Pool
  pool256 : Pool
deriving DecidableEq

/-- Embeds `Allocator::new()`. -/
def Allocator.new : Allocator :=
  { pool8 := Pool.new 8
    pool16 := Pool.new 16
    pool32 := Pool.new 32
    pool64 := Pool.new 64
    pool128 := Pool.new 128
    pool256 := Pool.new 256 }

/-- Embeds `Allocator::with_capacity(cap)`. -/
def Allocator.with_capacity (cap : Nat) : Allocator :=
  { pool8 := Pool.with_capacity cap 8 0
    pool16 := Pool.with_capacity cap 16 0
    pool32 := Pool.with_capacity cap 32 0
    pool64 := Pool.with_capacity cap 64 0
    pool128 := Pool.with_capacity cap 128 0
    pool256 := Pool.with_capacity cap 256 0 }

/-- Outcome of `Allocator::alloc`: success, the explicit
the explicit element-size panic, or undefined behaviour inside a corrupted
pool (never reached from a well-formed allocator). -/
inductive AllocOutcome where
  | ok (p : Pointer) (a : Allocator)
  | panicked
  | stuck
deriving DecidableEq

/-- Whether the outcome is a successful allocation. -/
def AllocOutcome.isOk : AllocOutcome → Bool
  | .ok _ _ => true
  | _ => false

/-- The state component of a successful outcome (defaulting otherwise). -/
def AllocOutcome.state (o : AllocOutcome) (dflt : Allocator) : Allocator :=
  match o with
  | .ok _ a => a
  | _ => dflt

/-- The handle component of a successful outcome (defaulting otherwise). -/
def AllocOutcome.handle (o : AllocOutcome) (dflt : Pointer) : Pointer :=
  match o with
  | .ok p _ => p
  | _ => dflt

/-- Embeds `Allocator::alloc(elem)`: route by `size_of::<T>()` through the fixed
if-chain to the smallest fitting class, pop a slot from that class's pool,
write the value through the returned pointer, and wrap the slot address in a
handle; panic when the size exceeds 256. -/
def Allocator.alloc (a : Allocator) (v : List Nat) : AllocOutcome :=
  let ele_size := v.length
  if ele_size ≤ 8 then
    match Pool.alloc a.pool8 with
    | some (addr, p') => .ok ⟨8, ⟨addr, none⟩⟩ { a with pool8 := p'.writeVal addr v }
    | none => .stuck
  else if ele_size ≤ 16 then
    match Pool.alloc a.pool16 with
    | some (addr, p') => .ok ⟨16, ⟨addr, none⟩⟩ { a with pool16 := p'.writeVal addr v }
    | none => .stuck
  else if ele_size ≤ 32 then
    match Pool.alloc a.pool32 with
    | some (addr, p') => .ok ⟨32, ⟨addr, none⟩⟩ { a with pool32 := p'.writeVal addr v }
    | none => .stuck
  else if ele_size ≤ 64 then
    match Pool.alloc a.pool64 with
    | some (addr, p') => .ok ⟨64, ⟨addr, none⟩⟩ { a with pool64 := p'.writeVal addr v }
    | none => .stuck
  else if ele_size ≤ 128 then
    match Pool.alloc a.pool128 with
    | some (addr, p') => .ok ⟨128, ⟨addr, none⟩⟩ { a with pool128 := p'.writeVal addr v }
    | none => .stuck
  else if ele_size ≤ 256 then
    match Pool.alloc a.pool256 with
    | some (addr, p') => .ok ⟨256, ⟨addr, none⟩⟩ { a with pool256 := p'.writeVal addr v }
    | none => .stuck
  else
    .panicked

/-- The pool a handle's `pool` back-reference designates. -/
def Allocator.poolFor (a : Allocator) (cls : Nat) : Pool :=
  if cls = 8 then a.pool8
  else if cls = 16 then a.pool16
  else if cls = 32 then a.pool32
  else if cls = 64 then a.pool64
  else if cls = 128 then a.pool128
  else a.pool256

/-- Dereferencing a handle (`Deref for Pointer`): read the slot the raw
pointer designates in the owning pool's memory. -/
def Allocator.read (a : Allocator) (p : Pointer) : Option (List Nat) :=
  (a.poolFor p.pool).readSlot p.node.data

/-- Embeds `Drop for Pointer`: recover the data address via `transmute_copy` and
recycle it into the owning pool. -/
def Allocator.drop (a : Allocator) (p : Pointer) : Allocator :=
  let node := p.node.transmuteCopyToNode
  if p.pool = 8 then { a with pool8 := a.pool8.recycle node }
  else if p.pool = 16 then { a with pool16 := a.pool16.recycle node }
  else if p.pool = 32 then { a with pool32 := a.pool32.recycle node }
  else if p.pool = 64 then { a with pool64 := a.pool64.recycle node }
  else if p.pool = 128 then { a with pool128 := a.pool128.recycle node }
  else { a with pool256 := a.pool256.recycle node }

/-- The size-class ladder of the facade. -/
def ladder : List Nat := [8, 16, 32, 64, 128, 256]

/-- The class selected by `Allocator::alloc`'s if-chain for a value of `n`
bytes; `none` means the panic branch. -/
def sizeClass (n : Nat) : Option Nat :=
  if n ≤ 8 then some 8
  else if n ≤ 16 then some 16
  else if n ≤ 32 then some 32
  else if n ≤ 64 then some 64
  else if n ≤ 128 then some 128
  else if n ≤ 256 then some 256
  else none

/-- Executable well-formedness of one pool, sufficient for `Pool.alloc` to
succeed: positive capacity and slot size, and a cursor that is either null
or points at a free-list node. -/
def Pool.allocatable (p : Pool) : Bool :=
  decide (1 ≤ p.cap) && decide (1 ≤ p.ele_size) &&
    match p.head with
    | none => true
    | some h =>
      match Mem.get p.mem h with
      | some (Slot.link _) => true
      | _ => false

/-- Executable well-formedness of the facade: every class's pool can serve
an allocation. -/
def Allocator.wf (a : Allocator) : Bool :=
  a.pool8.allocatable && a.pool16.allocatable && a.pool32.allocatable &&
    a.pool64.allocatable && a.pool128.allocatable && a.pool256.allocatable

/-- Walk the intrusive free list from cursor `h` through memory `m`,
collecting slot addresses; `none` when the walk runs out of fuel or meets
bytes that are not a link. -/
def freeChain (m : Mem) : Option Nat → Nat → Option (List Nat)
  | none, _ => some []
  | some _, 0 => none
  | some h, fuel + 1 =>
    match Mem.get m h with
    | some (Slot.link nxt) => (freeChain m nxt fuel).map (h :: ·)
    | _ => none

/-- The pool's free list is exactly `fl` (the walk terminates with `fl`). -/
def chainOf (p : Pool) (fl : List Nat) : Prop :=
  ∃ fuel, freeChain p.mem p.head fuel = some fl

/-- A single size class together with the addresses of its live handles
(handles issued and not yet dropped). -/
structure St where
  pool : Pool
  live : List Nat
deriving DecidableEq

/-- The client-visible operations on one size class: allocate a value
(`Allocator::alloc` restricted to the class), or drop a live handle
(`Drop for Pointer`).  Dropping requires the handle to be live: Rust's
ownership discipline runs `drop` exactly once per issued handle. -/
inductive Op where
  | alloc (v : List Nat)
  | drop (addr : Nat)
deriving DecidableEq

/-- One step of the per-class state machine. -/
def stepOp (s : St) : Op → Option St
  | Op.alloc v =>
    match Pool.alloc s.pool with
    | some (addr, p') => some ⟨p'.writeVal addr v, addr :: s.live⟩
    | none => none
  | Op.drop a =>
    if a ∈ s.live then some ⟨s.pool.recycle a, s.live.erase a⟩ else none

/-- Run a sequence of operations. -/
def runOps (s : St) : List Op → Option St
  | [] => some s
  | op :: ops =>
    match stepOp s op with
    | some s' => runOps s' ops
    | none => none

/-- The initial state of one size class with `num` slots of `es` bytes. -/
def initSt (num es : Nat) : St :=
  ⟨Pool.with_capacity num es 0, []⟩

/-- The allocator invariant of one size class: positive capacity and slot
size, no duplicate live handles, all addresses below the fresh-address
frontier, and a duplicate-free free list disjoint from the live handles. -/
def Inv (s : St) : Prop :=
  1 ≤ s.pool.cap ∧ 1 ≤ s.pool.ele_size ∧ s.live.Nodup ∧
    (∀ a ∈ s.live, a < s.pool.nextBase) ∧
    ∃ fl, chainOf s.pool fl ∧ fl.Nodup ∧
      (∀ a ∈ fl, a ∉ s.live) ∧ (∀ a ∈ fl, a < s.pool.nextBase)

/-- The pool state after a successful `Pool::alloc` (unchanged otherwise). -/
def allocPoolOf (p : Pool) : Pool :=
  match Pool.alloc p with
  | some (_, q) => q
  | none => p

/-- The state reached after running `ops`, defaulting to `s` on failure. -/
def runStOr (s : St) (ops : List Op) : St :=
  (runOps s ops).getD s

/-! ### Basic memory lemmas -/

theorem Mem.get_set_self (m : Mem) (a : Nat) (s : Slot) :
    Mem.get (Mem.set m a s) a = some s := by
  simp [Mem.get, Mem.set]

theorem Mem.get_set_ne (m : Mem) (s : Slot) {a b : Nat} (h : a ≠ b) :
    Mem.get (Mem.set m b s) a = Mem.get m a := by
  simp [Mem.get, Mem.set, h]

theorem slot_addr_inj {base es i k : Nat} (he : 1 ≤ es)
    (h : base + i * es = base + k * es) : i = k :=
  Nat.eq_of_mul_eq_mul_right he (Nat.add_left_cancel h)

/-! ### The free list built by `with_capacity` / `extend` -/

theorem linkLoop_get_lt (m : Mem) (base es : Nat) (he : 1 ≤ es) :
    ∀ k i, i < k → Mem.get (linkLoop m base es k) (base + i * es) =
      some (Slot.link (some (base + (i + 1) * es))) := by
  intro k
  induction k with
  | zero => intro i hi; omega
  | succ k ih =>
    intro i hi
    by_cases hik : i = k
    · subst hik
      simp [linkLoop, Mem.get_set_self]
    · have hne : base + i * es ≠ base + k * es := fun hc => hik (slot_addr_inj he hc)
      simp only [linkLoop]
      rw [Mem.get_set_ne _ _ hne]
      exact ih i (by omega)

theorem linkLoop_get_ge (m : Mem) (base es : Nat) (he : 1 ≤ es) :
    ∀ k i, k ≤ i → Mem.get (linkLoop m base es k) (base + i * es) =
      Mem.get m (base + i * es) := by
  intro k
  induction k with
  | zero => intro i _; rfl
  | succ k ih =>
    intro i hi
    have hne : base + i * es ≠ base + k * es := fun hc => by
      have := slot_addr_inj he hc; omega
    simp only [linkLoop]
    rw [Mem.get_set_ne _ _ hne]
    exact ih i (by omega)

theorem linkLoop_get_lt_base (m : Mem) (base es : Nat) :
    ∀ k a, a < base → Mem.get (linkLoop m base es k) a = Mem.get m a := by
  intro k
  induction k with
  | zero => intro a _; rfl
  | succ k ih =>
    intro a ha
    have hne : a ≠ base + k * es := by omega
    simp only [linkLoop]
    rw [Mem.get_set_ne _ _ hne]
    exact ih a ha

theorem buildLinks_get_last (m : Mem) (base num es : Nat) :
    Mem.get (buildLinks m base num es) (base + (num - 1) * es) =
      some (Slot.link none) := by
  simp [buildLinks, Mem.get_set_self]

theorem buildLinks_get_mid (m : Mem) (base es : Nat) (he : 1 ≤ es) {num i : Nat}
    (h : i + 1 < num) :
    Mem.get (buildLinks m base num es) (base + i * es) =
      some (Slot.link (some (base + (i + 1) * es))) := by
  have hne : base + i * es ≠ base + (num - 1) * es := fun hc => by
    have := slot_addr_inj he hc; omega
  simp only [buildLinks]
  rw [Mem.get_set_ne _ _ hne]
  exact linkLoop_get_lt m base es he (num - 1) i (by omega)

theorem buildLinks_get_lt_base (m : Mem) {base num es a : Nat} (h : a < base) :
    Mem.get (buildLinks m base num es) a = Mem.get m a := by
  have hne : a ≠ base + (num - 1) * es := by omega
  simp only [buildLinks]
  rw [Mem.get_set_ne _ _ hne]
  exact linkLoop_get_lt_base m base es (num - 1) a h

theorem buildLinks_get_base (m : Mem) (base : Nat) {num es : Nat}
    (he : 1 ≤ es) (hn : 1 ≤ num) :
    ∃ nxt, Mem.get (buildLinks m base num es) base = some (Slot.link nxt) := by
  by_cases h1 : num = 1
  · subst h1
    refine ⟨none, ?_⟩
    have := buildLinks_get_last m base 1 es
    simpa using this
  · refine ⟨some (base + (0 + 1) * es), ?_⟩
    have := buildLinks_get_mid m base es he (show 0 + 1 < num by omega)
    simpa using this

/-! ### Walking the free chain -/

theorem freeChain_none (m : Mem) (fuel : Nat) : freeChain m none fuel = some [] := by
  cases fuel <;> rfl

theorem freeChain_set_outside {m : Mem} {a : Nat} {s : Slot} :
    ∀ (fuel : Nat) (h : Option Nat) (fl : List Nat), a ∉ fl →
      freeChain m h fuel = some fl → freeChain (Mem.set m a s) h fuel = some fl := by
  intro fuel
  induction fuel with
  | zero =>
    intro h fl ha hch
    cases h with
    | none => simpa [freeChain] using hch
    | some x => simp [freeChain] at hch
  | succ f ih =>
    intro h fl ha hch
    cases h with
    | none => simpa [freeChain] using hch
    | some x =>
      simp only [freeChain] at hch ⊢
      cases hx : Mem.get m x with
      | none => rw [hx] at hch; simp at hch
      | some sl =>
        cases sl with
        | stored w => rw [hx] at hch; simp at hch
        | link nxt =>
          rw [hx] at hch
          simp only [Option.map_eq_some'] at hch
          obtain ⟨fl', hfl', rfl⟩ := hch
          have hax : x ≠ a := fun hax => ha (hax ▸ List.mem_cons_self x fl')
          have hnotin : a ∉ fl' := fun hmem => ha (List.mem_cons_of_mem x hmem)
          have hrec := ih nxt fl' hnotin hfl'
          simp [Mem.get_set_ne _ _ hax, hx, hrec]

theorem freeChain_det {m : Mem} :
    ∀ (f1 : Nat) (h : Option Nat) (f2 : Nat) (l1 l2 : List Nat),
      freeChain m h f1 = some l1 → freeChain m h f2 = some l2 → l1 = l2 := by
  intro f1
  induction f1 with
  | zero =>
    intro h f2 l1 l2 h1 h2
    cases h with
    | none =>
      rw [freeChain_none] at h1 h2
      simp at h1 h2
      rw [h1, h2]
    | some x => simp [freeChain] at h1
  | succ f ih =>
    intro h f2 l1 l2 h1 h2
    cases h with
    | none =>
      rw [freeChain_none] at h1 h2
      simp at h1 h2
      rw [h1, h2]
    | some x =>
      cases f2 with
      | zero => simp [freeChain] at h2
      | succ f2 =>
        simp only [freeChain] at h1 h2
        cases hx : Mem.get m x with
        | none => rw [hx] at h1; simp at h1
        | some sl =>
          cases sl with
          | stored w => rw [hx] at h1; simp at h1
          | link nxt =>
            rw [hx] at h1 h2
            simp only [Option.map_eq_some'] at h1 h2
            obtain ⟨l1', hl1', rfl⟩ := h1
            obtain ⟨l2', hl2', rfl⟩ := h2
            rw [ih nxt f2 l1' l2' hl1' hl2']

theorem freeChain_buildLinks_from (m : Mem) (base : Nat) {es : Nat}
    (he : 1 ≤ es) (num : Nat) :
    ∀ j k, k + j = num → 1 ≤ j →
      freeChain (buildLinks m base num es) (some (base + k * es)) j =
        some ((List.range j).map fun i => base + (k + i) * es) := by
  intro j
  induction j with
  | zero => intro k _ hj; omega
  | succ j ih =>
    intro k hk hj
    by_cases hj0 : j = 0
    · subst hj0
      have hknum : k = num - 1 := by omega
      simp only [freeChain]
      rw [hknum, buildLinks_get_last]
      simp [freeChain_none, List.range_succ]
    · have hmid : k + 1 < num := by omega
      have hih := ih (k + 1) (by omega) (by omega)
      simp only [freeChain, buildLinks_get_mid m base es he hmid, hih,
        Option.map_some', Option.some.injEq]
      rw [List.range_succ_eq_map, List.map_cons, List.map_map]
      have htail : ∀ i ∈ List.range j,
          base + (k + 1 + i) * es =
            ((fun i => base + (k + i) * es) ∘ Nat.succ) i := by
        intro i _
        simp only [Function.comp_apply]
        congr 1
        congr 1
        omega
      rw [List.map_congr_left htail]
      simp

theorem freeChain_buildLinks (m : Mem) (base : Nat) {num es : Nat}
    (he : 1 ≤ es) (hn : 1 ≤ num) :
    freeChain (buildLinks m base num es) (some base) num =
      some ((List.range num).map fun i => base + i * es) := by
  have h := freeChain_buildLinks_from m base he num num 0 (by omega) hn
  simpa using h

theorem newchain_nodup {base es : Nat} (he : 1 ≤ es) (num : Nat) :
    ((List.range num).map fun i => base + i * es).Nodup := by
  refine List.Nodup.map (fun i k hik => slot_addr_inj he hik) (List.nodup_range num)

theorem newchain_bound {base es num a : Nat} (he : 1 ≤ es)
    (ha : a ∈ (List.range num).map fun i => base + i * es) :
    base ≤ a ∧ a < base + num * es := by
  simp only [List.mem_map, List.mem_range] at ha
  obtain ⟨i, hi, rfl⟩ := ha
  refine ⟨Nat.le_add_right _ _, ?_⟩
  have h1 : i * es + es ≤ num * es := by
    have h2 : (i + 1) * es ≤ num * es := Nat.mul_le_mul_right es (by omega)
    calc i * es + es = (i + 1) * es := by ring
      _ ≤ num * es := h2
  omega

theorem freeChain_cons_elim {m : Mem} {h : Nat} {fuel : Nat} {fl : List Nat}
    (hch : freeChain m (some h) fuel = some fl) :
    ∃ nxt rest f', fuel = f' + 1 ∧ Mem.get m h = some (Slot.link nxt) ∧
      freeChain m nxt f' = some rest ∧ fl = h :: rest := by
  cases fuel with
  | zero => simp [freeChain] at hch
  | succ f =>
    simp only [freeChain] at hch
    cases hx : Mem.get m h with
    | none => rw [hx] at hch; simp at hch
    | some sl =>
      cases sl with
      | stored w => rw [hx] at hch; simp at hch
      | link nxt =>
        rw [hx] at hch
        simp only [Option.map_eq_some'] at hch
        obtain ⟨rest, hrest, hfl⟩ := hch
        exact ⟨nxt, rest, f, rfl, rfl, hrest, hfl.symm⟩

/-- Full characterization of one `Pool::alloc` followed by the caller's value
write: under the free-list invariant the call succeeds, hands out a slot that
comes either from the current free list or from the freshly grown buffer,
leaves every other slot's content unchanged, and leaves a duplicate-free free
list that no longer contains the handed-out slot. -/
theorem pool_alloc_spec (p : Pool) (v : List Nat) (fl : List Nat) (fuel : Nat)
    (hc : 1 ≤ p.cap) (he : 1 ≤ p.ele_size)
    (hch : freeChain p.mem p.head fuel = some fl)
    (hnd : fl.Nodup) (hb : ∀ a ∈ fl, a < p.nextBase) :
    ∃ addr p', Pool.alloc p = some (addr, p') ∧
      p'.cap = p.cap ∧ p'.ele_size = p.ele_size ∧
      p.nextBase ≤ p'.nextBase ∧ addr < p'.nextBase ∧
      (addr ∈ fl ∨ p.nextBase ≤ addr) ∧
      (∀ b, b < p.nextBase → b ≠ addr →
        Mem.get (p'.writeVal addr v).mem b = Mem.get p.mem b) ∧
      ∃ fl2 fuel2,
        freeChain (p'.writeVal addr v).mem (p'.writeVal addr v).head fuel2 =
          some fl2 ∧ fl2.Nodup ∧
        ∀ a ∈ fl2, a ≠ addr ∧ a < p'.nextBase ∧ (a ∈ fl ∨ p.nextBase ≤ a) := by
  cases hh : p.head with
  | some h =>
    rw [hh] at hch
    obtain ⟨nxt, rest, f, rfl, hx, hrest, rfl⟩ := freeChain_cons_elim hch
    have halloc : Pool.alloc p = some (h, { p with head := nxt }) := by
      simp [Pool.alloc, hh, hx]
    have hnotin : h ∉ rest := (List.nodup_cons.mp hnd).1
    refine ⟨h, { p with head := nxt }, halloc, rfl, rfl, Nat.le_refl _,
      hb h (List.mem_cons_self h rest), Or.inl (List.mem_cons_self h rest),
      ?_, rest, f, ?_, (List.nodup_cons.mp hnd).2, ?_⟩
    · intro b _ hbne
      exact Mem.get_set_ne _ _ hbne
    · exact freeChain_set_outside f nxt rest hnotin hrest
    · intro a ha
      have hane : a ≠ h := fun hae => hnotin (hae ▸ ha)
      exact ⟨hane, hb a (List.mem_cons_of_mem h ha),
        Or.inl (List.mem_cons_of_mem h ha)⟩
  | none =>
    have hfl : fl = [] := by
      rw [hh, freeChain_none] at hch
      exact (Option.some.injEq _ _ ▸ hch : [] = fl).symm
    subst hfl
    have hnew := freeChain_buildLinks p.mem p.nextBase he hc
    obtain ⟨nxt0, rest0, f', hf', hget, hrest0, hcons⟩ := freeChain_cons_elim hnew
    have hnodupNew : ((List.range p.cap).map
        fun i => p.nextBase + i * p.ele_size).Nodup := newchain_nodup he p.cap
    rw [hcons] at hnodupNew
    have hbasenotin : p.nextBase ∉ rest0 := (List.nodup_cons.mp hnodupNew).1
    have hpos : 0 < p.cap * p.ele_size := Nat.mul_pos hc he
    have halloc : Pool.alloc p = some (p.nextBase,
        { p with
          mem := buildLinks p.mem p.nextBase p.cap p.ele_size
          head := nxt0
          buffers := p.buffers ++ [p.nextBase]
          tail_pool := p.nextBase
          nextBase := p.nextBase + p.cap * p.ele_size }) := by
      simp [Pool.alloc, Pool.extend, hh, hget]
    have hlt : p.nextBase < p.nextBase + p.cap * p.ele_size := by omega
    refine ⟨p.nextBase, _, halloc, rfl, rfl, Nat.le_add_right _ _, hlt,
      Or.inr (Nat.le_refl _), ?_, rest0, f', ?_, (List.nodup_cons.mp hnodupNew).2, ?_⟩
    · intro b hblt hbne
      have h1 : Mem.get (Mem.set (buildLinks p.mem p.nextBase p.cap p.ele_size) p.nextBase
          (Slot.stored v)) b = Mem.get (buildLinks p.mem p.nextBase p.cap p.ele_size) b :=
        Mem.get_set_ne _ _ hbne
      simp only [Pool.writeVal]
      rw [h1]
      exact buildLinks_get_lt_base p.mem hblt
    · exact freeChain_set_outside f' nxt0 rest0 hbasenotin hrest0
    · intro a ha
      have hane : a ≠ p.nextBase := fun hae => hbasenotin (hae ▸ ha)
      have hmem : a ∈ (List.range p.cap).map fun i => p.nextBase + i * p.ele_size := by
        rw [hcons]; exact List.mem_cons_of_mem _ ha
      have hbd := newchain_bound he hmem
      exact ⟨hane, hbd.2, Or.inr hbd.1⟩

/-- The invariant holds in the initial state of one size class. -/
theorem Inv_initSt (num es : Nat) (hn : 1 ≤ num) (he : 1 ≤ es) :
    Inv (initSt num es) := by
  refine ⟨hn, he, List.nodup_nil, fun a ha => absurd ha (List.not_mem_nil a), ?_⟩
  refine ⟨(List.range num).map (fun i => 0 + i * es),
    ⟨num, freeChain_buildLinks [] 0 he hn⟩, newchain_nodup he num,
    fun a _ => List.not_mem_nil a, fun a ha => ?_⟩
  have hbd := newchain_bound he ha
  show a < 0 + num * es
  omega

/-- One allocation step from an invariant state: it succeeds, the fresh
handle's slot was not live before, the invariant is preserved, and every
live handle's stored value is unchanged (also across growth). -/
theorem stepOp_alloc_spec (s : St) (v : List Nat) (hInv : Inv s) :
    ∃ addr s', stepOp s (Op.alloc v) = some s' ∧
      s'.live = addr :: s.live ∧ addr ∉ s.live ∧ Inv s' ∧
      ∀ b w, b ∈ s.live → Pool.readSlot s.pool b = some w →
        Pool.readSlot s'.pool b = some w := by
  obtain ⟨hc, he, hlnd, hlb, fl, ⟨fuel, hch⟩, hnd, hdisj, hflb⟩ := hInv
  obtain ⟨addr, p', halloc, hcap, hes, hnb, haddrlt, haddrsrc, hframe, fl2, fuel2,
    hch2, hnd2, hprops⟩ := pool_alloc_spec s.pool v fl fuel hc he hch hnd hflb
  have haddrnotlive : addr ∉ s.live := by
    cases haddrsrc with
    | inl h => exact fun hmem => (hdisj addr h) hmem
    | inr h => intro hmem; have := hlb addr hmem; omega
  refine ⟨addr, ⟨p'.writeVal addr v, addr :: s.live⟩, ?_, rfl, haddrnotlive, ?_, ?_⟩
  · simp [stepOp, halloc]
  · refine ⟨?_, ?_, List.nodup_cons.mpr ⟨haddrnotlive, hlnd⟩, ?_, fl2,
      ⟨fuel2, hch2⟩, hnd2, ?_, ?_⟩
    · show 1 ≤ p'.cap
      omega
    · show 1 ≤ p'.ele_size
      omega
    · intro b hb
      show b < p'.nextBase
      rcases List.mem_cons.mp hb with rfl | hbl
      · exact haddrlt
      · have := hlb b hbl; omega
    · intro a ha
      obtain ⟨hane, _, hsrc⟩ := hprops a ha
      intro hmem
      rcases List.mem_cons.mp hmem with rfl | hmem2
      · exact hane rfl
      · cases hsrc with
        | inl h2 => exact (hdisj a h2) hmem2
        | inr h2 => have := hlb a hmem2; omega
    · intro a ha
      exact (hprops a ha).2.1
  · intro b w hbl hbr
    have hblt : b < s.pool.nextBase := hlb b hbl
    have hbne : b ≠ addr := fun hbe => haddrnotlive (hbe ▸ hbl)
    show Pool.readSlot (p'.writeVal addr v) b = some w
    simp only [Pool.readSlot] at hbr ⊢
    rw [hframe b hblt hbne]
    exact hbr

/-- One drop step of a live handle: it succeeds, the invariant is preserved,
the dropped slot becomes the new cursor head (pushed onto the free list
exactly once), and every other live handle's stored value is unchanged. -/
theorem stepOp_drop_spec (s : St) (a : Nat) (hInv : Inv s) (ha : a ∈ s.live) :
    stepOp s (Op.drop a) = some ⟨s.pool.recycle a, s.live.erase a⟩ ∧
      Inv ⟨s.pool.recycle a, s.live.erase a⟩ ∧
      (s.pool.recycle a).head = some a ∧
      (∀ fl, chainOf s.pool fl → a ∉ fl ∧ chainOf (s.pool.recycle a) (a :: fl)) ∧
      ∀ b w, b ∈ s.live.erase a → Pool.readSlot s.pool b = some w →
        Pool.readSlot (s.pool.recycle a) b = some w := by
  obtain ⟨hc, he, hlnd, hlb, fl, ⟨fuel, hch⟩, hnd, hdisj, hflb⟩ := hInv
  have hanotfl : a ∉ fl := fun hafl => (hdisj a hafl) ha
  have hchainrec : ∀ fl0, chainOf s.pool fl0 →
      a ∉ fl0 ∧ chainOf (s.pool.recycle a) (a :: fl0) := by
    intro fl0 ⟨fuel0, hch0⟩
    have hfl0 : fl0 = fl := freeChain_det fuel0 s.pool.head fuel fl0 fl hch0 hch
    subst hfl0
    refine ⟨hanotfl, fuel0 + 1, ?_⟩
    show freeChain (Mem.set s.pool.mem a (Slot.link s.pool.head)) (some a)
      (fuel0 + 1) = some (a :: fl0)
    simp only [freeChain, Mem.get_set_self]
    rw [freeChain_set_outside fuel0 s.pool.head fl0 hanotfl hch0]
    rfl
  refine ⟨by simp [stepOp, ha], ?_, rfl, hchainrec, ?_⟩
  · refine ⟨hc, he, hlnd.erase a, ?_, a :: fl, (hchainrec fl ⟨fuel, hch⟩).2,
      List.nodup_cons.mpr ⟨hanotfl, hnd⟩, ?_, ?_⟩
    · intro b hb
      have hbl : b ∈ s.live := List.mem_of_mem_erase hb
      show b < s.pool.nextBase
      exact hlb b hbl
    · intro b hb
      rcases List.mem_cons.mp hb with rfl | hbfl
      · exact hlnd.not_mem_erase
      · intro hmem
        exact (hdisj b hbfl) (List.mem_of_mem_erase hmem)
    · intro b hb
      show b < s.pool.nextBase
      rcases List.mem_cons.mp hb with rfl | hbfl
      · exact hlb b ha
      · exact hflb b hbfl
  · intro b w hb hbr
    have hbne : b ≠ a := fun hbe => hlnd.not_mem_erase (hbe ▸ hb)
    simp only [Pool.readSlot, Pool.recycle] at hbr ⊢
    rw [Mem.get_set_ne _ _ hbne]
    exact hbr

/-- The invariant is preserved along every successful run. -/
theorem runOps_inv : ∀ (ops : List Op) (s s' : St), Inv s →
    runOps s ops = some s' → Inv s' := by
  intro ops
  induction ops with
  | nil =>
    intro s s' h hrun
    simp only [runOps, Option.some.injEq] at hrun
    rw [← hrun]
    exact h
  | cons op ops ih =>
    intro s s' h hrun
    simp only [runOps] at hrun
    cases hstep : stepOp s op with
    | none => rw [hstep] at hrun; simp at hrun
    | some s1 =>
      rw [hstep] at hrun
      have h1 : Inv s1 := by
        cases op with
        | alloc v =>
          obtain ⟨addr, s2, hs2, _, _, hinv2, _⟩ := stepOp_alloc_spec s v h
          rw [hstep] at hs2
          injection hs2 with h2
          rw [h2]
          exact hinv2
        | drop a =>
          by_cases hmem : a ∈ s.live
          · obtain ⟨hs2, hinv2, _⟩ := stepOp_drop_spec s a h hmem
            rw [hstep] at hs2
            injection hs2 with h2
            rw [h2]
            exact hinv2
          · rw [stepOp] at hstep
            simp [hmem] at hstep
      exact ih s1 s' h1 hrun

/-- Under executable well-formedness, `Pool::alloc` succeeds. -/
theorem pool_alloc_of_allocatable (p : Pool) (h : p.allocatable = true) :
    ∃ addr p', Pool.alloc p = some (addr, p') := by
  simp only [Pool.allocatable, Bool.and_eq_true, decide_eq_true_eq] at h
  obtain ⟨⟨hc, he⟩, hhead⟩ := h
  cases hh : p.head with
  | some x =>
    cases hx : Mem.get p.mem x with
    | none => rw [hh] at hhead; simp [hx] at hhead
    | some sl =>
      cases sl with
      | stored w => rw [hh] at hhead; simp [hx] at hhead
      | link nxt =>
        refine ⟨x, { p with head := nxt }, ?_⟩
        simp [Pool.alloc, hh, hx]
  | none =>
    obtain ⟨nxt, hget⟩ := buildLinks_get_base p.mem p.nextBase he hc
    refine ⟨p.nextBase, { p with
        mem := buildLinks p.mem p.nextBase p.cap p.ele_size
        head := nxt
        buffers := p.buffers ++ [p.nextBase]
        tail_pool := p.nextBase
        nextBase := p.nextBase + p.cap * p.ele_size }, ?_⟩
    simp [Pool.alloc, Pool.extend, hh, hget]

/-! ### Claim theorems -/

/-- C2: narrowing a handle to a capability (trait-object) view changes
neither the owning pool nor the data address recovered on release: reading
through the narrowed handle and releasing it behave exactly as for the
un-narrowed handle, so the same slot address is recycled to the same arena. -/
theorem narrowing_preserves_recycle_target (a : Allocator) (p : Pointer)
    (vt : Nat) :
    (p.narrow vt).pool = p.pool ∧
    FatPtr.transmuteCopyToNode (p.narrow vt).node =
      FatPtr.transmuteCopyToNode p.node ∧
    Allocator.read a (p.narrow vt) = Allocator.read a p ∧
    Allocator.drop a (p.narrow vt) = Allocator.drop a p :=
  ⟨rfl, rfl, rfl, rfl⟩

/-- C3: allocating, releasing that handle, then allocating again from the
same class returns the slot address just released (LIFO reuse); the cursor is
non-null after the release, so no growth happens in between. -/
theorem lifo_reuse (p : Pool) (v : List Nat) (a1 : Nat) (p1 : Pool)
    (h : Pool.alloc p = some (a1, p1)) :
    ((p1.writeVal a1 v).recycle a1).head ≠ none ∧
    (Pool.alloc ((p1.writeVal a1 v).recycle a1)).map Prod.fst = some a1 := by
  constructor
  · simp [Pool.recycle]
  · simp [Pool.alloc, Pool.recycle, Pool.writeVal, Mem.get_set_self]

/-- Witness for C3 at a concrete input. -/
theorem lifo_reuse_witness :
    (Pool.alloc (((allocPoolOf (Pool.with_capacity 1 8 0)).writeVal 0
        [5]).recycle 0)).map Prod.fst = some 0 :=
  (lifo_reuse (Pool.with_capacity 1 8 0) [5] 0
    (allocPoolOf (Pool.with_capacity 1 8 0)) (by decide)).2

/-- C4: when the cursor is empty at an allocation, growth appends exactly one
new buffer of the original capacity and slot size, links it as the previous
tail's next, moves the tail marker to it, and redirects the root cursor to
the new buffer's internally built free list; the cursor is then non-empty and
the allocation succeeds, returning the new buffer's first slot. -/
theorem growth_appends_one_buffer (p : Pool) (hh : p.head = none)
    (hc : 1 ≤ p.cap) (he : 1 ≤ p.ele_size) :
    (p.extend).buffers = p.buffers ++ [p.nextBase] ∧
    (p.extend).tail_pool = p.nextBase ∧
    (p.extend).cap = p.cap ∧
    (p.extend).ele_size = p.ele_size ∧
    (p.extend).head = some p.nextBase ∧
    freeChain (p.extend).mem (p.extend).head p.cap =
      some ((List.range p.cap).map fun i => p.nextBase + i * p.ele_size) ∧
    (p.extend).head ≠ none ∧
    (Pool.alloc p).map Prod.fst = some p.nextBase := by
  have hext : p.extend = { p with
      mem := buildLinks p.mem p.nextBase p.cap p.ele_size
      head := some p.nextBase
      buffers := p.buffers ++ [p.nextBase]
      tail_pool := p.nextBase
      nextBase := p.nextBase + p.cap * p.ele_size } := by
    simp [Pool.extend, hh]
  obtain ⟨nxt, hget⟩ := buildLinks_get_base p.mem p.nextBase he hc
  refine ⟨by rw [hext], by rw [hext], by rw [hext], by rw [hext], by rw [hext],
    ?_, by rw [hext]; simp, ?_⟩
  · rw [hext]
    exact freeChain_buildLinks p.mem p.nextBase he hc
  · simp [Pool.alloc, Pool.extend, hh, hget]

/-- Witness for C4 at a concrete input (a capacity-1 pool drained once). -/
theorem growth_appends_one_buffer_witness :
    ((allocPoolOf (Pool.with_capacity 1 8 0)).extend).buffers = [0, 8] ∧
      (Pool.alloc (allocPoolOf (Pool.with_capacity 1 8 0))).map Prod.fst =
        some 8 := by
  have h := growth_appends_one_buffer (allocPoolOf (Pool.with_capacity 1 8 0))
    (by decide) (by decide) (by decide)
  exact ⟨h.1.trans (by decide), h.2.2.2.2.2.2.2⟩

/-- C9: under the construction preconditions (capacity at least one, slot
size a power of two and at least the 8-byte free-list `Node`), every slot
offset written while `Pool::with_capacity` links the initial free list stays
within the `num * ele_size`-byte buffer, the `num - 1` subtraction does not
underflow, and the built free list walks exactly `num` slots, slot `i`
linking to slot `i + 1` and the last slot linking to null. -/
theorem with_capacity_builds_free_list (num es base : Nat) (hn : 1 ≤ num)
    (hsz : 8 ≤ es) (hpow : ∃ k, es = 2 ^ k) :
    (num - 1) + 1 = num ∧
    (∀ i, i < num → base + i * es + es ≤ base + num * es) ∧
    freeChain (Pool.with_capacity num es base).mem
        (Pool.with_capacity num es base).head num =
      some ((List.range num).map fun i => base + i * es) ∧
    (∀ i, i + 1 < num →
      Mem.get (Pool.with_capacity num es base).mem (base + i * es) =
        some (Slot.link (some (base + (i + 1) * es)))) ∧
    Mem.get (Pool.with_capacity num es base).mem (base + (num - 1) * es) =
      some (Slot.link none) := by
  have he : 1 ≤ es := by omega
  refine ⟨by omega, ?_, ?_, ?_, ?_⟩
  · intro i hi
    have h2 : (i + 1) * es ≤ num * es := Nat.mul_le_mul_right es (by omega)
    calc base + i * es + es = base + (i + 1) * es := by ring
      _ ≤ base + num * es := by omega
  · exact freeChain_buildLinks [] base he hn
  · intro i hi
    exact buildLinks_get_mid [] base es he hi
  · exact buildLinks_get_last [] base num es

/-- Witness for C9 at a concrete input. -/
theorem with_capacity_builds_free_list_witness :
    freeChain (Pool.with_capacity 2 8 0).mem (Pool.with_capacity 2 8 0).head 2 =
      some [0, 8] := by
  have h := with_capacity_builds_free_list 2 8 0 (by decide) (by decide)
    ⟨3, by decide⟩
  exact h.2.2.1.trans (by decide)

/-- C1: for every copyable value of size at most 256 bytes, reading through
the handle returned by `Allocator::alloc` immediately after allocation yields
the allocated value. -/
theorem alloc_round_trip (a : Allocator) (v : List Nat) (hsize : v.length ≤ 256)
    (p : Pointer) (a' : Allocator) (hok : Allocator.alloc a v = .ok p a') :
    Allocator.read a' p = some v := by
  simp only [Allocator.alloc] at hok
  split_ifs at hok with h1 h2 h3 h4 h5
  · cases halloc : Pool.alloc a.pool8 with
    | none => rw [halloc] at hok; simp at hok
    | some r =>
      obtain ⟨addr, p'⟩ := r
      rw [halloc] at hok
      simp only [AllocOutcome.ok.injEq] at hok
      obtain ⟨hp, ha⟩ := hok
      subst hp; subst ha
      simp [Allocator.read, Allocator.poolFor, Pool.readSlot, Pool.writeVal,
        Mem.get_set_self]
  · cases halloc : Pool.alloc a.pool16 with
    | none => rw [halloc] at hok; simp at hok
    | some r =>
      obtain ⟨addr, p'⟩ := r
      rw [halloc] at hok
      simp only [AllocOutcome.ok.injEq] at hok
      obtain ⟨hp, ha⟩ := hok
      subst hp; subst ha
      simp [Allocator.read, Allocator.poolFor, Pool.readSlot, Pool.writeVal,
        Mem.get_set_self]
  · cases halloc : Pool.alloc a.pool32 with
    | none => rw [halloc] at hok; simp at hok
    | some r =>
      obtain ⟨addr, p'⟩ := r
      rw [halloc] at hok
      simp only [AllocOutcome.ok.injEq] at hok
      obtain ⟨hp, ha⟩ := hok
      subst hp; subst ha
      simp [Allocator.read, Allocator.poolFor, Pool.readSlot, Pool.writeVal,
        Mem.get_set_self]
  · cases halloc : Pool.alloc a.pool64 with
    | none => rw [halloc] at hok; simp at hok
    | some r =>
      obtain ⟨addr, p'⟩ := r
      rw [halloc] at hok
      simp only [AllocOutcome.ok.injEq] at hok
      obtain ⟨hp, ha⟩ := hok
      subst hp; subst ha
      simp [Allocator.read, Allocator.poolFor, Pool.readSlot, Pool.writeVal,
        Mem.get_set_self]
  · cases halloc : Pool.alloc a.pool128 with
    | none => rw [halloc] at hok; simp at hok
    | some r =>
      obtain ⟨addr, p'⟩ := r
      rw [halloc] at hok
      simp only [AllocOutcome.ok.injEq] at hok
      obtain ⟨hp, ha⟩ := hok
      subst hp; subst ha
      simp [Allocator.read, Allocator.poolFor, Pool.readSlot, Pool.writeVal,
        Mem.get_set_self]
  · cases halloc : Pool.alloc a.pool256 with
    | none => rw [halloc] at hok; simp at hok
    | some r =>
      obtain ⟨addr, p'⟩ := r
      rw [halloc] at hok
      simp only [AllocOutcome.ok.injEq] at hok
      obtain ⟨hp, ha⟩ := hok
      subst hp; subst ha
      simp [Allocator.read, Allocator.poolFor, Pool.readSlot, Pool.writeVal,
        Mem.get_set_self]

/-- Witness for C1 at a concrete input. -/
theorem alloc_round_trip_witness :
    Allocator.read
        ((Allocator.alloc (Allocator.with_capacity 1) [3, 1]).state Allocator.new)
        ((Allocator.alloc (Allocator.with_capacity 1) [3, 1]).handle ⟨0, 0, none⟩) =
      some [3, 1] :=
  alloc_round_trip (Allocator.with_capacity 1) [3, 1] (by decide)
    ((Allocator.alloc (Allocator.with_capacity 1) [3, 1]).handle ⟨0, 0, none⟩)
    ((Allocator.alloc (Allocator.with_capacity 1) [3, 1]).state Allocator.new)
    (by decide)

/-- C6: routing is pure size-based dispatch: a successful allocation's handle
records exactly the class `sizeClass` picks from the value's size, values of
equal size go to equal classes regardless of identity, and `sizeClass` is the
smallest ladder class at least the size. -/
theorem size_class_dispatch :
    (∀ (a : Allocator) (v : List Nat) (p : Pointer) (a' : Allocator),
      Allocator.alloc a v = .ok p a' → sizeClass v.length = some p.pool) ∧
    (∀ v w : List Nat, v.length = w.length →
      sizeClass v.length = sizeClass w.length) ∧
    (∀ n, n ≤ 256 → ∀ c, sizeClass n = some c →
      c ∈ ladder ∧ n ≤ c ∧ ∀ d ∈ ladder, n ≤ d → c ≤ d) := by
  refine ⟨?_, ?_, ?_⟩
  · intro a v p a' hok
    simp only [Allocator.alloc] at hok
    split_ifs at hok with h1 h2 h3 h4 h5
    · cases halloc : Pool.alloc a.pool8 with
      | none => rw [halloc] at hok; simp at hok
      | some r =>
        obtain ⟨addr, p'⟩ := r
        rw [halloc] at hok
        simp only [AllocOutcome.ok.injEq] at hok
        rw [← hok.1]
        simp [sizeClass, h1]
    · cases halloc : Pool.alloc a.pool16 with
      | none => rw [halloc] at hok; simp at hok
      | some r =>
        obtain ⟨addr, p'⟩ := r
        rw [halloc] at hok
        simp only [AllocOutcome.ok.injEq] at hok
        rw [← hok.1]
        simp [sizeClass, h1, h2]
    · cases halloc : Pool.alloc a.pool32 with
      | none => rw [halloc] at hok; simp at hok
      | some r =>
        obtain ⟨addr, p'⟩ := r
        rw [halloc] at hok
        simp only [AllocOutcome.ok.injEq] at hok
        rw [← hok.1]
        simp [sizeClass, h1, h2, h3]
    · cases halloc : Pool.alloc a.pool64 with
      | none => rw [halloc] at hok; simp at hok
      | some r =>
        obtain ⟨addr, p'⟩ := r
        rw [halloc] at hok
        simp only [AllocOutcome.ok.injEq] at hok
        rw [← hok.1]
        simp [sizeClass, h1, h2, h3, h4]
    · cases halloc : Pool.alloc a.pool128 with
      | none => rw [halloc] at hok; simp at hok
      | some r =>
        obtain ⟨addr, p'⟩ := r
        rw [halloc] at hok
        simp only [AllocOutcome.ok.injEq] at hok
        rw [← hok.1]
        simp [sizeClass, h1, h2, h3, h4, h5]
    · cases halloc : Pool.alloc a.pool256 with
      | none => rw [halloc] at hok; simp at hok
      | some r =>
        obtain ⟨addr, p'⟩ := r
        rw [halloc] at hok
        simp only [AllocOutcome.ok.injEq] at hok
        rw [← hok.1]
        simp only [sizeClass]
        split_ifs <;> first | rfl | omega
  · intro v w h
    rw [h]
  · intro n hn c hc
    simp only [sizeClass] at hc
    split_ifs at hc with g1 g2 g3 g4 g5
    · injection hc with hc2
      subst hc2
      refine ⟨by simp [ladder], g1, ?_⟩
      intro d hd _
      simp [ladder] at hd
      rcases hd with rfl | rfl | rfl | rfl | rfl | rfl <;> omega
    · injection hc with hc2
      subst hc2
      refine ⟨by simp [ladder], g2, ?_⟩
      intro d hd hnd
      simp [ladder] at hd
      rcases hd with rfl | rfl | rfl | rfl | rfl | rfl <;> omega
    · injection hc with hc2
      subst hc2
      refine ⟨by simp [ladder], g3, ?_⟩
      intro d hd hnd
      simp [ladder] at hd
      rcases hd with rfl | rfl | rfl | rfl | rfl | rfl <;> omega
    · injection hc with hc2
      subst hc2
      refine ⟨by simp [ladder], g4, ?_⟩
      intro d hd hnd
      simp [ladder] at hd
      rcases hd with rfl | rfl | rfl | rfl | rfl | rfl <;> omega
    · injection hc with hc2
      subst hc2
      refine ⟨by simp [ladder], g5, ?_⟩
      intro d hd hnd
      simp [ladder] at hd
      rcases hd with rfl | rfl | rfl | rfl | rfl | rfl <;> omega
    · injection hc with hc2
      subst hc2
      refine ⟨by simp [ladder], hn, ?_⟩
      intro d hd hnd
      simp [ladder] at hd
      rcases hd with rfl | rfl | rfl | rfl | rfl | rfl <;> omega

/-- Witness for C6 at concrete inputs. -/
theorem size_class_dispatch_witness :
    sizeClass 9 = some 16 ∧ 16 ∈ ladder ∧ 9 ≤ 16 := by
  have h := size_class_dispatch.2.2 9 (by omega) 16 (by decide)
  exact ⟨by decide, h.1, h.2.1⟩

/-- C7: `Allocator::alloc` panics exactly when the value's size exceeds 256
bytes; on a well-formed allocator it succeeds for every size up to 256. -/
theorem alloc_panics_iff_oversized (a : Allocator) (v : List Nat)
    (hwf : a.wf = true) :
    (Allocator.alloc a v = .panicked ↔ 256 < v.length) ∧
    (v.length ≤ 256 → (Allocator.alloc a v).isOk = true) := by
  simp only [Allocator.wf, Bool.and_eq_true] at hwf
  obtain ⟨⟨⟨⟨⟨hw8, hw16⟩, hw32⟩, hw64⟩, hw128⟩, hw256⟩ := hwf
  constructor
  · constructor
    · intro hpan
      by_contra hle
      push_neg at hle
      simp only [Allocator.alloc] at hpan
      split_ifs at hpan with h1 h2 h3 h4 h5
      · obtain ⟨addr, p', he⟩ := pool_alloc_of_allocatable a.pool8 hw8
        rw [he] at hpan; simp at hpan
      · obtain ⟨addr, p', he⟩ := pool_alloc_of_allocatable a.pool16 hw16
        rw [he] at hpan; simp at hpan
      · obtain ⟨addr, p', he⟩ := pool_alloc_of_allocatable a.pool32 hw32
        rw [he] at hpan; simp at hpan
      · obtain ⟨addr, p', he⟩ := pool_alloc_of_allocatable a.pool64 hw64
        rw [he] at hpan; simp at hpan
      · obtain ⟨addr, p', he⟩ := pool_alloc_of_allocatable a.pool128 hw128
        rw [he] at hpan; simp at hpan
      · obtain ⟨addr, p', he⟩ := pool_alloc_of_allocatable a.pool256 hw256
        rw [he] at hpan; simp at hpan
    · intro hbig
      simp only [Allocator.alloc]
      split_ifs with h1 h2 h3 h4 h5 h6 <;> first | omega | rfl
  · intro hle
    simp only [Allocator.alloc]
    split_ifs with h1 h2 h3 h4 h5
    · obtain ⟨addr, p', he⟩ := pool_alloc_of_allocatable a.pool8 hw8
      rw [he]; rfl
    · obtain ⟨addr, p', he⟩ := pool_alloc_of_allocatable a.pool16 hw16
      rw [he]; rfl
    · obtain ⟨addr, p', he⟩ := pool_alloc_of_allocatable a.pool32 hw32
      rw [he]; rfl
    · obtain ⟨addr, p', he⟩ := pool_alloc_of_allocatable a.pool64 hw64
      rw [he]; rfl
    · obtain ⟨addr, p', he⟩ := pool_alloc_of_allocatable a.pool128 hw128
      rw [he]; rfl
    · obtain ⟨addr, p', he⟩ := pool_alloc_of_allocatable a.pool256 hw256
      rw [he]; rfl

/-- Witness for C7 at a concrete input. -/
theorem alloc_panics_iff_oversized_witness :
    (Allocator.alloc (Allocator.with_capacity 1) (List.replicate 257 0) =
        .panicked ↔ 256 < (List.replicate 257 0).length) ∧
      ((Allocator.alloc (Allocator.with_capacity 1) [7]).isOk = true) := by
  have h1 := alloc_panics_iff_oversized (Allocator.with_capacity 1)
    (List.replicate 257 0) (by decide)
  have h2 := alloc_panics_iff_oversized (Allocator.with_capacity 1) [7]
    (by decide)
  exact ⟨h1.1, h2.2 (by decide)⟩

/-- C10: every value smaller than 8 bytes, including zero-sized ones, is
accepted and routed to the 8-byte class, consuming one full 8-byte slot of
that pool; the five other pools are untouched, and the public interface has
no lower size bound. -/
theorem small_values_route_to_8 (a : Allocator) (v : List Nat)
    (hsmall : v.length < 8) :
    sizeClass v.length = some 8 ∧
    (a.pool8.allocatable = true → (Allocator.alloc a v).isOk = true) ∧
    (∀ p a', Allocator.alloc a v = .ok p a' →
      p.pool = 8 ∧
      Mem.get a'.pool8.mem p.node.data = some (Slot.stored v) ∧
      a'.pool16 = a.pool16 ∧ a'.pool32 = a.pool32 ∧ a'.pool64 = a.pool64 ∧
      a'.pool128 = a.pool128 ∧ a'.pool256 = a.pool256) := by
  have h8 : v.length ≤ 8 := by omega
  refine ⟨by simp [sizeClass, h8], ?_, ?_⟩
  · intro hw
    obtain ⟨addr, p', he⟩ := pool_alloc_of_allocatable a.pool8 hw
    simp only [Allocator.alloc, if_pos h8, he]
    rfl
  · intro p a' hok
    simp only [Allocator.alloc, if_pos h8] at hok
    cases halloc : Pool.alloc a.pool8 with
    | none => rw [halloc] at hok; simp at hok
    | some r =>
      obtain ⟨addr, p'⟩ := r
      rw [halloc] at hok
      simp only [AllocOutcome.ok.injEq] at hok
      obtain ⟨hp, ha⟩ := hok
      subst hp; subst ha
      refine ⟨rfl, ?_, rfl, rfl, rfl, rfl, rfl⟩
      simp [Pool.writeVal, Mem.get_set_self]

/-- Witness for C10 at a concrete zero-sized input. -/
theorem small_values_route_to_8_witness :
    sizeClass 0 = some 8 ∧
      (Allocator.alloc (Allocator.with_capacity 1) []).isOk = true := by
  have h := small_values_route_to_8 (Allocator.with_capacity 1) [] (by decide)
  exact ⟨h.1, h.2.1 (by decide)⟩

/-- C5: in every reachable state of a size class, a live handle's slot is
never on the free list; an allocation never returns a live handle's slot; and
releasing a live handle pushes its slot onto the root cursor exactly once,
after which exactly the next allocation returns that slot (and takes it off
the free list again until it is freed once more). -/
theorem handle_slot_exclusivity (num es : Nat) (hn : 1 ≤ num) (he : 1 ≤ es)
    (ops : List Op) (s' : St)
    (hrun : runOps (initSt num es) ops = some s') :
    (∀ b, b ∈ s'.live → ∀ fl, chainOf s'.pool fl → b ∉ fl) ∧
    (∀ v addr t, stepOp s' (Op.alloc v) = some t →
      t.live = addr :: s'.live → addr ∉ s'.live) ∧
    (∀ b, b ∈ s'.live →
      ∃ s2, stepOp s' (Op.drop b) = some s2 ∧
        (∀ fl, chainOf s'.pool fl →
          chainOf s2.pool (b :: fl) ∧ b ∉ fl ∧ List.count b (b :: fl) = 1) ∧
        (Pool.alloc s2.pool).map Prod.fst = some b ∧
        ∀ v t, stepOp s2 (Op.alloc v) = some t →
          t.live = b :: s2.live ∧ ∀ fl2, chainOf t.pool fl2 → b ∉ fl2) := by
  have hInv : Inv s' :=
    runOps_inv ops (initSt num es) s' (Inv_initSt num es hn he) hrun
  obtain ⟨hc, he2, hlnd, hlb, fl0, hch0, hnd0, hdisj0, hflb0⟩ := hInv
  have hInv : Inv s' := ⟨hc, he2, hlnd, hlb, fl0, hch0, hnd0, hdisj0, hflb0⟩
  refine ⟨?_, ?_, ?_⟩
  · intro b hb fl hfl
    obtain ⟨fuel, hchf⟩ := hfl
    obtain ⟨fuel0, hchf0⟩ := hch0
    have hfleq : fl = fl0 := freeChain_det fuel s'.pool.head fuel0 fl fl0 hchf hchf0
    subst hfleq
    exact fun hbfl => (hdisj0 b hbfl) hb
  · intro v addr t hst hlive
    obtain ⟨addr1, s1, hstep1, hlive1, haddr1, _, _⟩ := stepOp_alloc_spec s' v hInv
    rw [hst] at hstep1
    injection hstep1 with hts
    rw [← hts] at hlive1
    rw [hlive] at hlive1
    injection hlive1 with haa _
    rw [haa]
    exact haddr1
  · intro b hb
    obtain ⟨hstepd, hInv2, hhead2, hchainrec, _⟩ := stepOp_drop_spec s' b hInv hb
    have hq : Pool.alloc (s'.pool.recycle b) =
        some (b, { s'.pool.recycle b with head := s'.pool.head }) := by
      simp [Pool.alloc, Pool.recycle, Mem.get_set_self]
    refine ⟨⟨s'.pool.recycle b, s'.live.erase b⟩, hstepd, ?_, ?_, ?_⟩
    · intro fl hfl
      obtain ⟨hbfl, hch2⟩ := hchainrec fl hfl
      refine ⟨hch2, hbfl, ?_⟩
      rw [List.count_cons_self, List.count_eq_zero.mpr hbfl]
    · simp only [hq, Option.map_some']
    · intro v t hstept
      have hstep2 : stepOp ⟨s'.pool.recycle b, s'.live.erase b⟩ (Op.alloc v) =
          some ⟨({ s'.pool.recycle b with head := s'.pool.head }).writeVal b v,
            b :: s'.live.erase b⟩ := by
        simp only [stepOp, hq]
      rw [hstept] at hstep2
      injection hstep2 with ht
      subst ht
      obtain ⟨addr1, s1, hstep1, hlive1, haddr1, hInv1, _⟩ :=
        stepOp_alloc_spec ⟨s'.pool.recycle b, s'.live.erase b⟩ v hInv2
      rw [hstept] at hstep1
      injection hstep1 with hs1
      rw [← hs1] at hInv1
      refine ⟨rfl, ?_⟩
      intro fl2 hfl2
      obtain ⟨_, _, _, _, fl1, hchain1, hnd1, hdisj1, _⟩ := hInv1
      obtain ⟨fuelA, hA⟩ := hfl2
      obtain ⟨fuelB, hB⟩ := hchain1
      have hfl21 : fl2 = fl1 := freeChain_det fuelA _ fuelB fl2 fl1 hA hB
      subst hfl21
      intro hbf
      exact (hdisj1 b hbf) (List.mem_cons_self b (s'.live.erase b))

/-- Witness for C5 at a concrete input: drop the one live handle of a
reachable state, then the very next allocation returns its slot. -/
theorem handle_slot_exclusivity_witness :
    (Pool.alloc (runStOr (runStOr (initSt 2 8) [Op.alloc [1]])
      [Op.drop 0]).pool).map Prod.fst = some 0 := by
  obtain ⟨s2, hs2, _, hfst, _⟩ :=
    (handle_slot_exclusivity 2 8 (by decide) (by decide) [Op.alloc [1]]
      (runStOr (initSt 2 8) [Op.alloc [1]]) (by decide)).2.2 0 (by decide)
  have hrun1 : runOps (runStOr (initSt 2 8) [Op.alloc [1]]) [Op.drop 0] =
      some s2 := by
    simp only [runOps, hs2]
  have hR : runStOr (runStOr (initSt 2 8) [Op.alloc [1]]) [Op.drop 0] = s2 := by
    show (runOps (runStOr (initSt 2 8) [Op.alloc [1]]) [Op.drop 0]).getD
      (runStOr (initSt 2 8) [Op.alloc [1]]) = s2
    rw [hrun1]
    rfl
  rw [hR]
  exact hfst

/-- C8: growth transparency: from any reachable state of a size class, any
further sequence of allocations — in particular one exceeding the remaining
buffer capacity, which forces growth — succeeds, and every already-live
handle keeps reading back its original value afterwards. -/
theorem growth_transparency (num es : Nat) (hn : 1 ≤ num) (he : 1 ≤ es)
    (ops : List Op) (s' : St) (hrun : runOps (initSt num es) ops = some s')
    (a : Nat) (v : List Nat) (ha : a ∈ s'.live)
    (hv : Pool.readSlot s'.pool a = some v) (vs : List (List Nat)) :
    ∃ t, runOps s' (vs.map Op.alloc) = some t ∧
      a ∈ t.live ∧ Pool.readSlot t.pool a = some v := by
  have hInv : Inv s' :=
    runOps_inv ops (initSt num es) s' (Inv_initSt num es hn he) hrun
  clear hrun
  induction vs generalizing s' with
  | nil => exact ⟨s', rfl, ha, hv⟩
  | cons w ws ih =>
    obtain ⟨addr, s1, hstep, hlive1, haddr, hInv1, hframe⟩ :=
      stepOp_alloc_spec s' w hInv
    have ha1 : a ∈ s1.live := by
      rw [hlive1]
      exact List.mem_cons_of_mem addr ha
    have hv1 : Pool.readSlot s1.pool a = some v := hframe a v ha hv
    obtain ⟨t, hrun2, hat, hvt⟩ := ih s1 ha1 hv1 hInv1
    refine ⟨t, ?_, hat, hvt⟩
    simp only [List.map_cons, runOps, hstep]
    exact hrun2

/-- Witness for C8 at a concrete input: a capacity-1 class holding one live
value survives two further allocations (which force growth). -/
theorem growth_transparency_witness :
    (runOps (runStOr (initSt 1 8) [Op.alloc [9]])
        ([[7], [6]].map Op.alloc)).isSome = true ∧
      0 ∈ (runStOr (runStOr (initSt 1 8) [Op.alloc [9]])
        ([[7], [6]].map Op.alloc)).live ∧
      Pool.readSlot (runStOr (runStOr (initSt 1 8) [Op.alloc [9]])
        ([[7], [6]].map Op.alloc)).pool 0 = some [9] := by
  obtain ⟨t, h1, h2, h3⟩ := growth_transparency 1 8 (by decide) (by decide)
    [Op.alloc [9]] (runStOr (initSt 1 8) [Op.alloc [9]]) (by decide) 0 [9]
    (by decide) (by decide) [[7], [6]]
  have hR : runStOr (runStOr (initSt 1 8) [Op.alloc [9]])
      ([[7], [6]].map Op.alloc) = t := by
    show (runOps (runStOr (initSt 1 8) [Op.alloc [9]])
      ([[7], [6]].map Op.alloc)).getD (runStOr (initSt 1 8) [Op.alloc [9]]) = t
    rw [h1]
    rfl
  refine ⟨?_, ?_, ?_⟩
  · rw [h1]; rfl
  · rw [hR]; exact h2
  · rw [hR]; exact h3

end ArenAlloc
